import Mathlib

/-!
A verification development for the gx-go dependency-vendoring tool.

The Go source is shallowly embedded: file contents are `List Char`
(byte-for-byte for the ASCII sublanguage we model), import paths and
hashes are `String` or `List Char`, Go maps are association lists, and
the filesystem is a partial map from path to contents.

The model of `rewriteImportsInFile` (rewrite/rewrite.go) follows the
current, concurrent engine: parse the file's import declarations, apply
the translation, and if anything changed re-render the import block with
`go/printer`, splice it in front of the original file's bytes from the
end of the original import block, write the result to a sibling `.temp`
file and rename it over the original.

Since `go/parser`/`go/printer` cannot themselves be embedded, we model
them on the sublanguage of source files of the shape

  ws* "package" ws+ ident ws* [ "import" ws* "(" (ws* quoted-path)* ws* ")" ] body

with ASCII identifiers, no comments, and a single (parenthesised) import
declaration containing no blank-line groups.  On this sublanguage the
real printer renders the file as

  "package " name "\n\n" "import (\n" ("\t\"" path "\"\n")* ")\n"

which is exactly gofmt's canonical layout; `parseGoFile`/`printGoFile`
below mirror that behaviour, including the byte offsets `importsStart`
(offset of the `import` keyword) and `importsEnd` (offset just past the
closing quote of the last import spec, which is what
`fset.Position(file.Imports[len-1].End()).Offset` yields in the Go code).
-/

set_option maxRecDepth 4000

/-- Whitespace characters recognised by the model scanner. -/
def isWS (c : Char) : Bool := c.toNat == 32 || c.toNat == 10 || c.toNat == 9

/-- ASCII identifier characters (model restriction of Go identifiers). -/
def isIdentChar (c : Char) : Bool :=
  (97 ≤ c.toNat && c.toNat ≤ 122) || (65 ≤ c.toNat && c.toNat ≤ 90) ||
  (48 ≤ c.toNat && c.toNat ≤ 57) || c.toNat == 95

/-- Characters allowed inside a quoted import path: anything but `"`. -/
def notQuote (c : Char) : Bool := c.toNat != 34

/-- Result of parsing a source file's header and import declarations
(the `parser.ImportsOnly` view of the file). -/
structure PFile where
  pkgName : List Char
  imports : List (List Char)
  importsStart : Nat
  importsEnd : Nat
  deriving DecidableEq

/-- Parse the list of import specs inside a parenthesised import block.
`s` is positioned just after `(` or just after a closing quote.  Returns
the parsed paths together with the suffix of the input that starts right
after the closing quote of the last spec (or `s` itself if there are no
specs).  Fuel decreases once per spec. -/
def parseSpecs : Nat → List Char → Option (List (List Char) × List Char)
  | 0, _ => none
  | fuel + 1, s =>
    match s.dropWhile isWS with
    | ')' :: _ => some ([], s)
    | '"' :: r =>
      let p := r.takeWhile notQuote
      match r.drop p.length with
      | '"' :: after =>
        match parseSpecs fuel after with
        | some ([], _) => some ([p], after)
        | some (q :: qs, rest) => some (p :: q :: qs, rest)
        | none => none
      | _ => none
    | _ => none

/-- Parse a source file's package clause and import block (the model of
`parser.ParseFile(..., parser.ImportsOnly|parser.ParseComments)` on the
modelled sublanguage). -/
def parseGoFile (s : List Char) : Option PFile :=
  let s0 := s.dropWhile isWS
  if "package".toList.isPrefixOf s0 then
    let s1 := s0.drop 7
    match s1 with
    | c :: _ =>
      if isWS c then
        let s2 := s1.dropWhile isWS
        let name := s2.takeWhile isIdentChar
        if name.isEmpty then none
        else
          let s3 := s2.drop name.length
          let s4 := s3.dropWhile isWS
          if "import".toList.isPrefixOf s4 then
            let s5 := s4.drop 6
            match s5.dropWhile isWS with
            | '(' :: s7 =>
              match parseSpecs (s7.length + 1) s7 with
              | some (paths, rest) =>
                match rest.dropWhile isWS with
                | ')' :: _ => some ⟨name, paths, s.length - s4.length, s.length - rest.length⟩
                | _ => none
              | none => none
            | _ => none
          else
            some ⟨name, [], s.length - s4.length, s.length - s4.length⟩
      else none
    | [] => none
  else none

/-- The text of the import specs as laid out by `go/printer`: each spec
on its own line, tab-indented, starting with the newline that ends the
previous line, and ending right after its closing quote. -/
def specsText (imps : List (List Char)) : List Char :=
  imps.flatMap (fun p => '\n' :: '\t' :: '"' :: (p ++ ['"']))

/-- Canonically printed file up to (and including) the closing quote of
the last import spec — or up to `(` if there are no specs. -/
def printPre (name : List Char) (imps : List (List Char)) : List Char :=
  "package ".toList ++ name ++ '\n' :: '\n' :: "import (".toList ++ specsText imps

/-- The model of `printer.Config.Fprint` on an ImportsOnly AST: the
canonical gofmt rendering of the package clause and import block. -/
def printGoFile (name : List Char) (imps : List (List Char)) : List Char :=
  printPre name imps ++ '\n' :: ')' :: ['\n']

/-- The canonical pre-import-block bytes: what the printer emits before
the `import` keyword. -/
def canonHeader (name : List Char) : List Char :=
  "package ".toList ++ name ++ '\n' :: ['\n']

/-- Lexicographic comparison of paths by character code (the order in
which `ast.SortImports` leaves a single import group). -/
def lexLe : List Char → List Char → Bool
  | [], _ => true
  | _ :: _, [] => false
  | a :: as, b :: bs =>
    if a.toNat < b.toNat then true
    else if b.toNat < a.toNat then false
    else lexLe as bs

/-- Insert into a sorted list (helper for the model of `ast.SortImports`). -/
def insertPath (p : List Char) : List (List Char) → List (List Char)
  | [] => [p]
  | q :: qs => if lexLe p q then p :: q :: qs else q :: insertPath p qs

/-- The model of `ast.SortImports` on a single import group. -/
def sortPaths : List (List Char) → List (List Char)
  | [] => []
  | p :: ps => insertPath p (sortPaths ps)

/-- Outcome of `rewriteImportsInFile` on one file: a parse/IO error, no
write performed, or a rewrite producing `pre ++ suf` where `pre` is the
re-rendered import block (printer output truncated at the new
`importsEnd`) and `suf` is the original file's bytes from the old
`importsEnd` on. -/
inductive RwResult where
  | err : RwResult
  | unchanged : RwResult
  | rewritten : List Char → List Char → RwResult
  deriving DecidableEq

/-- The model of `rewriteImportsInFile` (rewrite/rewrite.go): parse the imports;
if there are none, or no translation changes anything, leave
the file alone; otherwise print the translated imports, re-parse and
sort them, re-parse once more to find the new end-of-imports offset,
truncate the printed text there and append the original bytes from the
old end-of-imports offset. -/
def rewriteFileModel (s : List Char) (rw : List Char → List Char) : RwResult :=
  match parseGoFile s with
  | none => .err
  | some f =>
    if f.imports.isEmpty then .unchanged
    else
      let newImps := f.imports.map rw
      if f.imports.any (fun p => rw p != p) then
        match parseGoFile (printGoFile f.pkgName newImps) with
        | none => .err
        | some f1 =>
          match parseGoFile (printGoFile f1.pkgName (sortPaths f1.imports)) with
          | none => .err
          | some f2 =>
            .rewritten ((printGoFile f2.pkgName f2.imports).take f2.importsEnd)
              (s.drop f.importsEnd)
      else .unchanged

/-! ## Filesystem effects of the write phase (rewrite/rewrite.go, step "Finally, build the file") -/

/-- Filesystem operations performed by the write phase of
`rewriteImportsInFile`: create a file (truncating), append bytes to it,
or rename one path over another. -/
inductive FsOp where
  | create : String → FsOp
  | write : String → List Char → FsOp
  | rename : String → String → FsOp
  deriving DecidableEq

/-- The path an operation touches before the final install: `create`
and `write` touch their own path; `rename a b` reads `a` (and installs
at `b`). -/
def FsOp.target : FsOp → String
  | .create p => p
  | .write p _ => p
  | .rename a _ => a

/-- A filesystem: contents by path. -/
abbrev Fs : Type := String → Option (List Char)

/-- Contents of `p`, defaulting to empty. -/
def fsGet (fs : Fs) (p : String) : Option (List Char) := fs p

def applyOp (fs : Fs) : FsOp → Fs
  | .create p => fun q => if q = p then some [] else fs q
  | .write p d => fun q => if q = p then some ((fs p).getD [] ++ d) else fs q
  | .rename a b => fun q => if q = a then none else if q = b then fs a else fs q

def applyOps (fs : Fs) (ops : List FsOp) : Fs := ops.foldl applyOp fs

/-- The exact sequence of filesystem operations the write phase performs
for file `fi`: everything is written to the sibling `fi ++ ".temp"` and
a single final rename installs it over `fi`. -/
def writeEffects (fi : String) (pre suf : List Char) : List FsOp :=
  [.create (fi ++ ".temp"), .write (fi ++ ".temp") pre, .write (fi ++ ".temp") suf,
   .rename (fi ++ ".temp") fi]

/-- Filesystem operations performed by `rewriteImportsInFile` on file
`fi` with contents `s`: none at all unless a rewrite actually happens. -/
def rewriteFileEffects (fi : String) (s : List Char) (rw : List Char → List Char) : List FsOp :=
  match rewriteFileModel s rw with
  | .rewritten pre suf => writeEffects fi pre suf
  | _ => []

/-! ## The tree walk (RewriteImports, rewrite/rewrite.go) -/

/-- Is `rel` a candidate file of the walk: not under `.git` or `vendor`,
a `.go` file, and accepted by the caller's filter. -/
def isCandidate (rel : String) (filter : String → Bool) : Bool :=
  !(".git".toList.isPrefixOf rel.toList) && !("vendor".toList.isPrefixOf rel.toList) &&
  ("og.".toList.isPrefixOf rel.toList.reverse) && filter rel

/-- The walk loop of `RewriteImports`: each candidate file is handed to
`rewriteImportsInFile`; a per-file error is recorded (the Go code prints
it) and the walk continues with the remaining files. -/
def walkRW (files : List (String × List Char)) (rw : List Char → List Char)
    (filter : String → Bool) : List (String × RwResult) :=
  match files with
  | [] => []
  | (rel, content) :: rest =>
    if isCandidate rel filter then (rel, rewriteFileModel content rw) :: walkRW rest rw filter
    else walkRW rest rw filter

/-- The model of `RewriteImports`: `none` for the root models a failing
`filepath.EvalSymlinks` (root path does not exist), the only case in
which the function returns an error; otherwise the whole tree is walked
and the per-file outcomes collected. -/
def rewriteTreeModel (root : Option (List (String × List Char))) (rw : List Char → List Char)
    (filter : String → Bool) : Except Unit (List (String × RwResult)) :=
  match root with
  | none => .error ()
  | some files => .ok (walkRW files rw filter)

/-! ## The translation function built by doRewrite (main.go) -/

/-- A rewrite mapping: association list from original to canonical import
path (the Go `map[string]string`, in some iteration order). -/
abbrev RwMap : Type := List (List Char × List Char)

/-- Exact-key lookup, model of `m[in]`. -/
def lookupA (m : RwMap) (p : List Char) : Option (List Char) :=
  match m with
  | [] => none
  | (k, v) :: r => if k = p then some v else lookupA r p

/-- Does key `k` match `p` as a path prefix, model of
`strings.HasPrefix(in, k+"/")`. -/
def keyMatches (k p : List Char) : Bool := (k ++ ['/']).isPrefixOf p

/-- First entry of the map whose key prefix-matches `p` (the Go code
takes whichever entry its map iteration happens to visit first). -/
def findMatch (m : RwMap) (p : List Char) : Option (List Char × List Char) :=
  m.find? (fun kv => keyMatches kv.1 p)

/-- The translation closure `rwm` built by `doRewrite`: exact hits are
returned as-is; otherwise the first key that prefix-matches is applied
(`strings.Replace(in, k, v, 1)`, i.e. the prefix `k` is replaced by `v`)
and the result memoised; otherwise the identity is memoised. Returns
the translated path together with the updated shared mapping. -/
def rwmTranslate (m : RwMap) (p : List Char) : List Char × RwMap :=
  match lookupA m p with
  | some v => (v, m)
  | none =>
    match findMatch m p with
    | some (k, v) => let n := v ++ p.drop k.length; (n, m ++ [(p, n)])
    | none => (p, m ++ [(p, p)])

/-! ## The rewrite-map builder (buildRewriteMapping / addRewriteForDep, main.go) -/

/-- A dependency entry of a package descriptor (`gx.Dependency`): its
content hash and short name. -/
structure GDep where
  hash : String
  name : String
  deriving DecidableEq

/-- The part of a package descriptor the builder reads: name, the
`gx.dvcsimport` origin path, and the declared dependency list. -/
structure GPkg where
  name : String
  dvcsImport : String
  deps : List GDep
  deriving DecidableEq

/-- String-keyed association lookup (model of a Go map read). -/
def lookupS {α : Type} (m : List (String × α)) (k : String) : Option α :=
  match m with
  | [] => none
  | (k', v) :: r => if k' = k then some v else lookupS r k

/-- Membership in the seen set. -/
def memS (l : List String) (x : String) : Bool := l.any (fun y => y = x)

/-- In-place update of an association list (model of `m[from] = to` when
the key already exists). -/
def setS (m : List (String × String)) (k v : String) : List (String × String) :=
  match m with
  | [] => [(k, v)]
  | (k', v') :: r => if k' = k then (k, v) :: r else (k', v') :: setS r k v

/-- State of the builder: the rewrite map, the seen set of hashes, and
the warnings logged for conflicting transitive entries (key, existing
value, rejected value). -/
structure RWSt where
  m : List (String × String)
  seen : List String
  warns : List (String × String × String)
  deriving DecidableEq

/-- The model of `addRewriteForDep`: contribute the pair
`(DvcsImport, "gx/ipfs/"+hash+"/"+name)` (swapped when undoing) to the
map. A missing origin path contributes nothing. A fresh key is always
inserted; an existing key is overwritten only when `overwrite` is set
(root-package dependencies); otherwise a differing value is logged as a
warning and the existing entry wins. -/
def addRewriteForDep (dep : GDep) (pkg : GPkg) (st : RWSt) (undo overwrite : Bool) : RWSt :=
  if pkg.dvcsImport = "" then st
  else
    let f0 := pkg.dvcsImport
    let t0 := "gx/ipfs/" ++ dep.hash ++ "/" ++ pkg.name
    let f1 := if undo then t0 else f0
    let t1 := if undo then f0 else t0
    match lookupS st.m f1 with
    | none => { st with m := st.m ++ [(f1, t1)] }
    | some existing =>
      if overwrite then { st with m := setS st.m f1 t1 }
      else if existing ≠ t1 then { st with warns := st.warns ++ [(f1, existing, t1)] }
      else st

/-- The traversal of `buildRewriteMapping` as a depth-first worklist:
each pending entry is a dependency paired with the flag saying whether
it came from the root package's direct dependency list. An already-seen
hash is skipped; otherwise the dependency's descriptor is loaded from
the registry (a missing descriptor is a hard error naming the
dependency), its contribution applied, and its own dependency list
pushed in front of the remaining work with the root flag cleared. -/
def buildRW (reg : List (String × GPkg)) (undo : Bool) :
    Nat → List (GDep × Bool) → RWSt → Except String RWSt
  | 0, _, _ => .error "out of fuel"
  | _ + 1, [], st => .ok st
  | fuel + 1, (d, root) :: rest, st =>
    if memS st.seen d.hash then buildRW reg undo fuel rest st
    else
      match lookupS reg d.hash with
      | none => .error ("package " ++ d.name ++ " not found")
      | some cpkg =>
        let st1 := addRewriteForDep d cpkg { st with seen := st.seen ++ [d.hash] } undo root
        buildRW reg undo fuel (cpkg.deps.map (fun e => (e, false)) ++ rest) st1

deriving instance DecidableEq for Except

/-- The model of `buildRewriteMapping`: process the root package's
direct dependencies with the root flag set. -/
def buildRewriteMapping (pkg : GPkg) (reg : List (String × GPkg)) (undo : Bool)
    (fuel : Nat) : Except String RWSt :=
  buildRW reg undo fuel (pkg.deps.map (fun e => (e, true))) ⟨[], [], []⟩

/-! ## Canonicalization and the publisher (getBaseDVCS / GxPublishGoPackage) -/

/-- `strings.Split(path, "/")`. -/
def splitSlash : List Char → List (List Char)
  | [] => [[]]
  | '/' :: rest => [] :: splitSlash rest
  | c :: rest =>
    match splitSlash rest with
    | [] => [[c]]
    | g :: gs => (c :: g) :: gs

/-- `strings.Join(parts, "/")`. -/
def joinSlash (ls : List (List Char)) : List Char := List.intercalate ['/'] ls

/-- The model of `getBaseDVCS`: with depth fixed at 3, a path with more
than 3 slash-separated segments is cut down to its first 3 segments;
shorter paths are returned unchanged. -/
def getBaseDVCS (p : String) : String :=
  let parts := splitSlash p.toList
  if parts.length > 3 then ⟨joinSlash (parts.take 3)⟩ else p

/-- Last path segment (default package name). -/
def lastSeg (p : String) : String := ⟨(splitSlash p.toList).getLastD []⟩

/-- State of one top-level publish invocation: the memo table mapping
canonicalized import path to its published dependency, and the log of
store-publish calls in order. -/
structure PubSt where
  pkgs : List (String × GDep)
  log : List String
  deriving DecidableEq

/-- A pending step of the publisher: `call p` is an invocation of
`GxPublishGoPackage(p)`; `finish ip` publishes the already-materialised
package at canonical path `ip` to the store and memoises it. -/
inductive GxTask where
  | call : String → GxTask
  | finish : String → GxTask
  deriving DecidableEq

/-- The recursion of `GxPublishGoPackage` as a depth-first task list
over the import graph `g` (the PathOracle: canonical path to its
direct non-stdlib imports). A `call p` first canonicalizes `p`; a
memo hit returns immediately with no further work; otherwise the
package's discovered imports (minus those sharing the current path as a
prefix) are published recursively, followed by `finish`. A `finish ip`
models `pm.PublishPackage`: the store assigns the content hash
(deterministic in the content, modelled as `"Qm" ++ ip`), the publish is
logged, and the memo table extended. -/
def gxRun (g : List (String × List String)) :
    Nat → List GxTask → PubSt → Option PubSt
  | 0, _, _ => none
  | _ + 1, [], st => some st
  | fuel + 1, .call p :: rest, st =>
    let ip := getBaseDVCS p
    match lookupS st.pkgs ip with
    | some _ => gxRun g fuel rest st
    | none =>
      let children := ((lookupS g ip).getD []).filter (fun c => !(ip.toList.isPrefixOf c.toList))
      gxRun g fuel (children.map .call ++ .finish ip :: rest) st
  | fuel + 1, .finish ip :: rest, st =>
    gxRun g fuel rest ⟨st.pkgs ++ [(ip, ⟨"Qm" ++ ip, lastSeg ip⟩)], st.log ++ [ip]⟩

/-! ## Concrete instances used by several claims -/

/-- Translation that maps import path `a` to `b` and fixes the rest. -/
def rwAB : List Char → List Char := fun p => if p = "a".toList then "b".toList else p

/-- Diamond-shaped import graph: root imports A and B; A and B import C. -/
def diamondG : List (String × List String) := [("root", ["A", "B"]), ("A", ["C"]), ("B", ["C"])]

/-! ## C10 -/

/-- C10: the translation closure built by `doRewrite` returns `m[p]` for
an exact hit (leaving the map untouched); otherwise, if some key `k` of
the mapping satisfies that `p` starts with `k ++ "/"`, it returns `p`
with that prefix `k` replaced by `m[k]` and memoises the result;
otherwise it returns `p` unchanged and memoises the identity entry.  In
all cases it is total (never fails). -/
theorem c10_translate_cases (m : RwMap) (p : List Char) :
    (∀ v, lookupA m p = some v → rwmTranslate m p = (v, m)) ∧
    (lookupA m p = none →
      (∀ k v, findMatch m p = some (k, v) →
        (k, v) ∈ m ∧ keyMatches k p = true ∧
        rwmTranslate m p = (v ++ p.drop k.length, m ++ [(p, v ++ p.drop k.length)])) ∧
      (findMatch m p = none → rwmTranslate m p = (p, m ++ [(p, p)]))) := by
  refine ⟨?_, fun hnone => ⟨?_, ?_⟩⟩
  · intro v h
    unfold rwmTranslate
    rw [h]
  · intro k v h
    have h' : m.find? (fun kv => keyMatches kv.1 p) = some (k, v) := h
    refine ⟨List.mem_of_find?_eq_some h', by simpa using List.find?_some h', ?_⟩
    unfold rwmTranslate
    rw [hnone, h]
  · intro h
    unfold rwmTranslate
    rw [hnone, h]

/-- Witness for C10 at a concrete map and path. -/
theorem c10_translate_cases_witness :
    rwmTranslate [("a".toList, "x".toList)] "a/b".toList =
      ("x/b".toList, [("a".toList, "x".toList), ("a/b".toList, "x/b".toList)]) := by
  have h := (c10_translate_cases [("a".toList, "x".toList)] "a/b".toList).2
    (by decide) |>.1 "a".toList "x".toList (by decide)
  exact h.2.2

/-! ## C6 -/

/-- C6 counterexample: at depth 3, `getBaseDVCS` keeps the first three
slash-separated segments, so `example.org/repo/sub/pkg` maps to
`example.org/repo/sub`, not `example.org/repo`, and the two example
paths map to two different canonical forms. -/
theorem c6_counterexample :
    getBaseDVCS "example.org/repo/sub/pkg" ≠ "example.org/repo" ∧
    getBaseDVCS "example.org/repo/sub2/pkg2" ≠ "example.org/repo" ∧
    getBaseDVCS "example.org/repo/sub/pkg" ≠ getBaseDVCS "example.org/repo/sub2/pkg2" := by
  decide

/-- C6 amended: canonicalization at depth 3 reduces a path with more
than three slash-separated segments to its first three segments (for
hosts like github.com, where the repository root is three segments,
this is the repository-root form); `example.org/repo/sub/pkg` and
`example.org/repo/sub2/pkg2` therefore canonicalize to
`example.org/repo/sub` and `example.org/repo/sub2` respectively, which
are treated as two distinct logical dependencies. -/
theorem c6_amended :
    getBaseDVCS "example.org/repo/sub/pkg" = "example.org/repo/sub" ∧
    getBaseDVCS "example.org/repo/sub2/pkg2" = "example.org/repo/sub2" ∧
    getBaseDVCS "github.com/user/repo/sub/pkg" = "github.com/user/repo" ∧
    getBaseDVCS "github.com/user/repo/sub2/pkg2" = "github.com/user/repo" ∧
    (∀ p : String, (splitSlash p.toList).length > 3 →
      getBaseDVCS p = String.mk (joinSlash ((splitSlash p.toList).take 3))) ∧
    (∀ p : String, ¬ (splitSlash p.toList).length > 3 → getBaseDVCS p = p) := by
  refine ⟨by decide, by decide, by decide, by decide, ?_, ?_⟩
  · intro p h
    unfold getBaseDVCS
    simp only []
    rw [if_pos h]
  · intro p h
    unfold getBaseDVCS
    simp only []
    rw [if_neg h]

/-- Witness for the general clauses of the amended C6. -/
theorem c6_amended_witness :
    getBaseDVCS "a/b/c/d/e" = String.mk (joinSlash ((splitSlash "a/b/c/d/e".toList).take 3)) ∧
    getBaseDVCS "a/b" = "a/b" :=
  ⟨c6_amended.2.2.2.2.1 "a/b/c/d/e" (by decide), c6_amended.2.2.2.2.2 "a/b" (by decide)⟩

/-! ## C5 -/

/-- C5: over the diamond graph (root imports A and B, which both import
C) one top-level publish invocation logs exactly one store-publish of C;
and in general a publish call whose canonicalized path is already in
the memo table returns immediately — it consumes the call with no
re-publication, no re-fetch, no recursion and no state change. -/
theorem c5_memoization :
    (gxRun diamondG 20 [.call "root"] ⟨[], []⟩).map (fun st => st.log.count "C") = some 1 ∧
    (∀ g fuel p rest st d, lookupS st.pkgs (getBaseDVCS p) = some d →
      gxRun g (fuel + 1) (.call p :: rest) st = gxRun g fuel rest st) := by
  refine ⟨by decide, ?_⟩
  intro g fuel p rest st d h
  show (let ip := getBaseDVCS p;
    match lookupS st.pkgs ip with
    | some _ => gxRun g fuel rest st
    | none =>
      let children := ((lookupS g ip).getD []).filter (fun c => !(ip.toList.isPrefixOf c.toList))
      gxRun g fuel (children.map .call ++ .finish ip :: rest) st) = gxRun g fuel rest st
  simp only []
  rw [h]

/-- Witness for the memo-hit clause of C5. -/
theorem c5_memoization_witness :
    gxRun diamondG 3 [.call "C"] ⟨[("C", ⟨"QmC", "C"⟩)], ["C"]⟩ =
      gxRun diamondG 2 [] ⟨[("C", ⟨"QmC", "C"⟩)], ["C"]⟩ :=
  c5_memoization.2 diamondG 2 "C" [] ⟨[("C", ⟨"QmC", "C"⟩)], ["C"]⟩ ⟨"QmC", "C"⟩ (by decide)

/-! ## C4 -/

/-- Dependencies and registry for the C4 scenario: the root directly
depends on D1 and on DB; D1 depends on DA and DB; DA and DB both
declare origin path `P`. DB is first visited transitively (through D1)
and only afterwards encountered in the root's direct list. -/
def depD1 : GDep := ⟨"h1", "n1"⟩

def depDA : GDep := ⟨"hA", "na"⟩

def depDB : GDep := ⟨"hB", "nb"⟩

def regC4 : List (String × GPkg) :=
  [("h1", ⟨"n1", "p1", [depDA, depDB]⟩), ("hA", ⟨"na", "P", []⟩), ("hB", ⟨"nb", "P", []⟩)]

def rootC4 : GPkg := ⟨"root", "", [depD1, depDB]⟩

/-- C4 counterexample: DB is in the root package's direct dependency
list, but because its hash was already added to the SeenSet while it
was visited transitively (through D1), the builder skips it entirely at
root level: the final map entry for `P` is DA's target, not DB's
root-level (overwriting) target as the claim requires. -/
theorem c4_counterexample :
    depDB ∈ rootC4.deps ∧
    buildRewriteMapping rootC4 regC4 false 20 =
      .ok ⟨[("p1", "gx/ipfs/h1/n1"), ("P", "gx/ipfs/hA/na")], ["h1", "hA", "hB"],
           [("P", "gx/ipfs/hA/na", "gx/ipfs/hB/nb")]⟩ ∧
    ("gx/ipfs/hA/na" : String) ≠ "gx/ipfs/" ++ depDB.hash ++ "/" ++ "nb" := by
  refine ⟨by decide, by decide, by decide⟩

/-- C4 amended: a dependency whose identifier is already in the SeenSet
is skipped entirely — not reloaded, not re-recursed, and contributing
no map entry at all; in particular a dependency first seen transitively
and later encountered in the root package's direct dependency list does
not get a root-level overwriting contribution (its first,
transitive-level contribution stands). -/
theorem c4_amended (reg : List (String × GPkg)) (undo : Bool) (fuel : Nat)
    (d : GDep) (flag : Bool) (rest : List (GDep × Bool)) (st : RWSt)
    (h : memS st.seen d.hash = true) :
    buildRW reg undo (fuel + 1) ((d, flag) :: rest) st = buildRW reg undo fuel rest st := by
  conv_lhs => rw [buildRW]
  rw [h]
  simp

/-- Witness for the amended C4: the already-seen DB is skipped at root
level. -/
theorem c4_amended_witness :
    buildRW regC4 false 5 [(depDB, true)] ⟨[("P", "gx/ipfs/hA/na")], ["hB"], []⟩ =
      buildRW regC4 false 4 [] ⟨[("P", "gx/ipfs/hA/na")], ["hB"], []⟩ :=
  c4_amended regC4 false 4 depDB true [] ⟨[("P", "gx/ipfs/hA/na")], ["hB"], []⟩ (by decide)

/-! ## C8 -/

/-- Shared-map instance with two keys that both prefix-match the path
`a/b/c`, in its two iteration orders. -/
def mapOrd1 : RwMap := [("a".toList, "x".toList), ("a/b".toList, "y".toList)]

def mapOrd2 : RwMap := [("a/b".toList, "y".toList), ("a".toList, "x".toList)]

/-- Initial one-entry mapping for the processing-order half of the C8
counterexample. -/
def mapInit : RwMap := [("a/b".toList, "y".toList)]

/-- The cache after translating `a` first: an identity entry for `a`
was memoised. -/
def mapAfterA : RwMap := [("a/b".toList, "y".toList), ("a".toList, "a".toList)]

/-- The same cache in its other iteration order. -/
def mapAfterA2 : RwMap := [("a".toList, "a".toList), ("a/b".toList, "y".toList)]

/-- C8 counterexample, in both respects. Iteration order: `mapOrd1` and
`mapOrd2` are the same finite map (one a permutation of the other, with
no duplicate keys), yet translating `a/b/c` returns `x/b/c` under one
iteration order and `y/c` under the other. Processing order: starting
from the mapping `{a/b → y}`, translating `a/b/c` directly yields
`y/c`; but a run that first translates `a` memoises the identity entry
`a → a`, and translating `a/b/c` against the resulting cache (in the
iteration order that visits `a` first — `mapAfterA2` is a permutation
of that cache) yields `a/b/c` instead: two runs of the shared translate
function over the same initial mapping disagree on the translated
path. -/
theorem c8_counterexample :
    (mapOrd1.Perm mapOrd2 ∧ (mapOrd1.map Prod.fst).Nodup ∧
      (rwmTranslate mapOrd1 "a/b/c".toList).1 = "x/b/c".toList ∧
      (rwmTranslate mapOrd2 "a/b/c".toList).1 = "y/c".toList ∧
      (rwmTranslate mapOrd1 "a/b/c".toList).1 ≠ (rwmTranslate mapOrd2 "a/b/c".toList).1) ∧
    ((rwmTranslate mapInit "a/b/c".toList).1 = "y/c".toList ∧
      rwmTranslate mapInit "a".toList = ("a".toList, mapAfterA) ∧
      mapAfterA.Perm mapAfterA2 ∧ (mapAfterA.map Prod.fst).Nodup ∧
      (rwmTranslate mapAfterA2 "a/b/c".toList).1 = "a/b/c".toList ∧
      (rwmTranslate mapAfterA2 "a/b/c".toList).1 ≠ (rwmTranslate mapInit "a/b/c".toList).1) := by
  refine ⟨⟨List.Perm.swap _ _ _, by decide, by decide, by decide, by decide⟩,
    by decide, by decide, List.Perm.swap _ _ _, by decide, by decide, by decide⟩

/-! ## C3 -/

/-- C3: for a root package with direct dependency D1 (hash `h1`,
loading to a descriptor with origin path `p`), whose own dependency D2
(hash `h2`) also declares origin path `p` with a different canonical
target, the rewrite-map build succeeds with the entry for `p` equal to
D1's canonical target `gx/ipfs/h1/n1`; the transitive conflict is
recorded as a warning (key, winning value, rejected value), never as an
error. -/
theorem c3_overwrite_rule (h1 h2 n1 n2 p : String)
    (hne : h1 ≠ h2) (hp : p ≠ "")
    (ht : ("gx/ipfs/" ++ h1 ++ "/" ++ n1 : String) ≠ "gx/ipfs/" ++ h2 ++ "/" ++ n2) :
    buildRewriteMapping ⟨"root", "", [⟨h1, n1⟩]⟩
      [(h1, ⟨n1, p, [⟨h2, n2⟩]⟩), (h2, ⟨n2, p, []⟩)] false 4 =
    .ok ⟨[(p, "gx/ipfs/" ++ h1 ++ "/" ++ n1)], [h1, h2],
         [(p, "gx/ipfs/" ++ h1 ++ "/" ++ n1, "gx/ipfs/" ++ h2 ++ "/" ++ n2)]⟩ := by
  have e4 : (4 : Nat) = 3 + 1 := rfl
  have e3 : (3 : Nat) = 2 + 1 := rfl
  have e2 : (2 : Nat) = 1 + 1 := rfl
  unfold buildRewriteMapping
  rw [e4]
  simp only [List.map]
  rw [buildRW]
  simp [memS, lookupS, addRewriteForDep, hne, hp, ht]
  rw [e3]
  rw [buildRW]
  simp [memS, lookupS, addRewriteForDep, hne, hp, ht]
  rw [e2]
  rw [buildRW]

/-- Witness for C3 at concrete hashes, names and origin path. -/
theorem c3_overwrite_rule_witness :
    buildRewriteMapping ⟨"root", "", [⟨"h1", "n1"⟩]⟩
      [("h1", ⟨"n1", "P", [⟨"h2", "n2"⟩]⟩), ("h2", ⟨"n2", "P", []⟩)] false 4 =
    .ok ⟨[("P", "gx/ipfs/" ++ "h1" ++ "/" ++ "n1")], ["h1", "h2"],
         [("P", "gx/ipfs/" ++ "h1" ++ "/" ++ "n1", "gx/ipfs/" ++ "h2" ++ "/" ++ "n2")]⟩ :=
  c3_overwrite_rule "h1" "h2" "n1" "n2" "P" (by decide) (by decide) (by decide)

/-! ## C2 -/

/-- C2: for a parseable source file in which the translation maps every import
path to itself, `rewriteImportsInFile` performs no write at all:
it returns successfully before any buffer or file I/O (so the file's
bytes and its modification time are untouched), and its filesystem
effect trace is empty. -/
theorem c2_identity_no_write (fi : String) (s : List Char) (rw : List Char → List Char)
    (f : PFile) (hp : parseGoFile s = some f) (hid : ∀ q ∈ f.imports, rw q = q) :
    rewriteFileModel s rw = .unchanged ∧ rewriteFileEffects fi s rw = [] := by
  have hres : rewriteFileModel s rw = .unchanged := by
    unfold rewriteFileModel
    rw [hp]
    by_cases he : f.imports.isEmpty
    · simp [he]
    · have hany : (f.imports.any fun q => rw q != q) = false := by
        rw [List.any_eq_false]
        intro q hq
        simp [bne_iff_ne, hid q hq]
      simp [he, hany]
  refine ⟨hres, ?_⟩
  unfold rewriteFileEffects
  rw [hres]

/-- Witness for C2: a concrete file whose single import is fixed by the
translation. -/
theorem c2_identity_no_write_witness :
    rewriteFileModel "package main\n\nimport (\n\t\"zz\"\n)\nbody\n".toList rwAB = .unchanged ∧
    rewriteFileEffects "f.go" "package main\n\nimport (\n\t\"zz\"\n)\nbody\n".toList rwAB = [] :=
  c2_identity_no_write "f.go" _ rwAB ⟨"main".toList, ["zz".toList], 14, 28⟩ (by decide) (by decide)

/-! ## C7 -/

/-- Three-file tree: one file with a deliberately malformed header
between two well-formed files. -/
def threeFiles : List (String × List Char) :=
  [("f1.go", "package main\n\nimport (\n\t\"a\"\n)\nb1\n".toList),
   ("bad.go", "package (\n".toList),
   ("f3.go", "package p3\n\nimport (\n\t\"a\"\n\t\"zz\"\n)\nb3\n".toList)]

/-- C7: `RewriteImports` returns an error only for the structural
failure of resolving the root path; when the root exists the walk always
returns success and every candidate file is processed independently —
a per-file error is recorded and does not stop the remaining files from
being processed. Concretely, on a three-file tree whose middle file is
malformed, the walk reports exactly one per-file error and still
rewrites the other two files. -/
theorem c7_continue_on_error :
    (∀ rw filter, rewriteTreeModel none rw filter = .error ()) ∧
    (∀ files rw filter, rewriteTreeModel (some files) rw filter = .ok (walkRW files rw filter)) ∧
    (∀ files rw filter, walkRW files rw filter =
      (files.filter (fun pr => isCandidate pr.1 filter)).map
        (fun pr => (pr.1, rewriteFileModel pr.2 rw))) ∧
    walkRW threeFiles rwAB (fun _ => true) =
      [("f1.go", .rewritten "package main\n\nimport (\n\t\"b\"".toList "\n)\nb1\n".toList),
       ("bad.go", .err),
       ("f3.go", .rewritten "package p3\n\nimport (\n\t\"b\"\n\t\"zz\"".toList "\n)\nb3\n".toList)] := by
  refine ⟨fun _ _ => rfl, fun _ _ _ => rfl, ?_, by decide⟩
  intro files rw filter
  induction files with
  | nil => rfl
  | cons pr rest ih =>
    obtain ⟨rel, content⟩ := pr
    by_cases hc : isCandidate rel filter
    · simp [walkRW, List.filter_cons, hc, ih]
    · simp [walkRW, List.filter_cons, hc, ih]

/-! ## C9 -/

/-- Helper: the sibling temp path is distinct from the original. -/
theorem temp_ne_self (fi : String) : fi ++ ".temp" ≠ fi := by
  intro h
  have h1 : (fi ++ ".temp").length = fi.length := by rw [h]
  rw [String.length_append] at h1
  have h5 : ".temp".length = 5 := rfl
  omega

/-- C9: `rewriteImportsInFile` writes only to the sibling temporary
file `fi ++ ".temp"` and installs the result over `fi` with the single
final rename. Interpreting any proper prefix of its effect trace — which
covers every error exit and every crash point before the rename — leaves
the original file's contents unchanged, while the full trace installs
the complete rewritten contents `pre ++ suf`; when the function exits
with an error or without a change, it performs no filesystem effect at
all. -/
theorem c9_atomic_install (fi : String) (s : List Char) (rw : List Char → List Char)
    (pre suf : List Char) (fs : Fs)
    (h : rewriteFileModel s rw = .rewritten pre suf) :
    rewriteFileEffects fi s rw =
      [.create (fi ++ ".temp"), .write (fi ++ ".temp") pre, .write (fi ++ ".temp") suf,
       .rename (fi ++ ".temp") fi] ∧
    (∀ op ∈ rewriteFileEffects fi s rw, op.target = fi ++ ".temp") ∧
    (∀ k, k < (rewriteFileEffects fi s rw).length →
      applyOps fs ((rewriteFileEffects fi s rw).take k) fi = fs fi) ∧
    applyOps fs (rewriteFileEffects fi s rw) fi = some (pre ++ suf) ∧
    (∀ (fi' : String) (s' : List Char),
      rewriteFileModel s' rw = .err ∨ rewriteFileModel s' rw = .unchanged →
      rewriteFileEffects fi' s' rw = []) := by
  have he : rewriteFileEffects fi s rw =
      [.create (fi ++ ".temp"), .write (fi ++ ".temp") pre, .write (fi ++ ".temp") suf,
       .rename (fi ++ ".temp") fi] := by
    unfold rewriteFileEffects
    rw [h]
    rfl
  have hne := temp_ne_self fi
  have hne' : fi ≠ fi ++ ".temp" := Ne.symm hne
  refine ⟨he, ?_, ?_, ?_, ?_⟩
  · intro op hop
    rw [he] at hop
    simp only [List.mem_cons, List.not_mem_nil, or_false] at hop
    rcases hop with rfl | rfl | rfl | rfl <;> rfl
  · intro k hk
    rw [he] at hk ⊢
    simp only [List.length_cons, List.length_nil] at hk
    interval_cases k <;>
      simp [applyOps, applyOp, hne, hne']
  · rw [he]
    simp [applyOps, applyOp, hne, hne']
  · intro fi' s' hcase
    unfold rewriteFileEffects
    rcases hcase with hc | hc <;> rw [hc]

/-- Witness for C9 on a concrete file, checking every prefix length of
the effect trace against an initially populated filesystem. -/
theorem c9_atomic_install_witness :
    applyOps (fun q => if q = "f.go" then some "old".toList else none)
      ((rewriteFileEffects "f.go" "package main\n\nimport (\n\t\"a\"\n)\nb1\n".toList rwAB).take 2)
      "f.go" = some "old".toList := by
  have h := c9_atomic_install "f.go" "package main\n\nimport (\n\t\"a\"\n)\nb1\n".toList rwAB
    "package main\n\nimport (\n\t\"b\"".toList "\n)\nb1\n".toList
    (fun q => if q = "f.go" then some "old".toList else none) (by decide)
  exact h.2.2.1 2 (by rw [h.1]; decide)

/-! ## C8: helper lemmas about association-list lookup under permutation -/

theorem lookupA_some_mem {m : RwMap} {p v : List Char} (h : lookupA m p = some v) :
    (p, v) ∈ m := by
  induction m with
  | nil => simp [lookupA] at h
  | cons kv r ih =>
    obtain ⟨k, w⟩ := kv
    by_cases hk : k = p
    · subst hk
      simp [lookupA] at h
      simp [h]
    · simp [lookupA, hk] at h
      exact List.mem_cons_of_mem _ (ih h)

theorem mem_lookupA_some {m : RwMap} (hnd : (m.map Prod.fst).Nodup) {p v : List Char}
    (h : (p, v) ∈ m) : lookupA m p = some v := by
  induction m with
  | nil => simp at h
  | cons kv r ih =>
    obtain ⟨k, w⟩ := kv
    rw [List.map_cons, List.nodup_cons] at hnd
    rcases List.mem_cons.mp h with heq | hmem
    · obtain ⟨rfl, rfl⟩ := Prod.mk.injEq .. ▸ heq
      simp [lookupA]
    · have hk : k ≠ p := by
        intro hkp
        subst hkp
        have hmm : (k, v).1 ∈ r.map Prod.fst := List.mem_map_of_mem _ hmem
        exact hnd.1 hmm
      simp only [lookupA, if_neg hk]
      exact ih hnd.2 hmem

theorem lookupA_none_iff {m : RwMap} {p : List Char} :
    lookupA m p = none ↔ ∀ kv ∈ m, kv.1 ≠ p := by
  induction m with
  | nil => simp [lookupA]
  | cons kv r ih =>
    obtain ⟨k, w⟩ := kv
    by_cases hk : k = p
    · subst hk
      simp [lookupA]
    · simp [lookupA, hk, ih]

theorem lookupA_perm {m1 m2 : RwMap} {p : List Char} (hperm : m1.Perm m2)
    (hnd : (m1.map Prod.fst).Nodup) : lookupA m1 p = lookupA m2 p := by
  have hnd2 : (m2.map Prod.fst).Nodup := ((hperm.map Prod.fst).nodup_iff).mp hnd
  cases h1 : lookupA m1 p with
  | some v =>
    exact (mem_lookupA_some hnd2 (hperm.mem_iff.mp (lookupA_some_mem h1))).symm
  | none =>
    cases h2 : lookupA m2 p with
    | some w =>
      have := mem_lookupA_some hnd (hperm.mem_iff.mpr (lookupA_some_mem h2))
      rw [h1] at this
      exact absurd this (by simp)
    | none => rfl

theorem find_unique_eq {α : Type} {pred : α → Bool} {m : List α} {x : α}
    (huniq : ∀ a ∈ m, pred a = true → a = x) (hx : x ∈ m) (hpx : pred x = true) :
    m.find? pred = some x := by
  induction m with
  | nil => simp at hx
  | cons h0 r ih =>
    by_cases hp0 : pred h0 = true
    · have hx0 : h0 = x := huniq h0 (List.mem_cons_self _ _) hp0
      subst hx0
      simp [List.find?, hp0]
    · have hp0' : pred h0 = false := by
        revert hp0
        cases pred h0 <;> simp
      have hx' : x ∈ r := by
        rcases List.mem_cons.mp hx with rfl | hr
        · exact absurd hpx hp0
        · exact hr
      simp only [List.find?, hp0']
      exact ih (fun a ha hpa => huniq a (List.mem_cons_of_mem _ ha) hpa) hx'

theorem lookupA_append_left {m : RwMap} {q v : List Char} (l : RwMap)
    (h : lookupA m q = some v) : lookupA (m ++ l) q = some v := by
  induction m with
  | nil => simp [lookupA] at h
  | cons kv r ih =>
    obtain ⟨k, w⟩ := kv
    by_cases hk : k = q
    · subst hk
      simp [lookupA] at h ⊢
      exact h
    · simp only [List.cons_append, lookupA, if_neg hk] at h ⊢
      exact ih h

/-- C8 amended: the shared translate cache only ever adds entries,
never revising existing ones. The translated path, however, is not in
general independent of the order (see the counterexample, which refutes
both iteration-order and processing-order independence). What does
hold: one translation's result is independent of the map's internal
iteration order whenever every entry of the map at the time of the call
that prefix-matches the path yields the same replacement — this covers
in particular exact-key hits and consistent memoised second matches
such as `{a → x, a/b → x/b}` for `a/b/c`. -/
theorem c8_order_independence :
    (∀ (m1 m2 : RwMap) (p : List Char), m1.Perm m2 → (m1.map Prod.fst).Nodup →
      (∀ kv1 ∈ m1, ∀ kv2 ∈ m1,
        keyMatches kv1.1 p = true → keyMatches kv2.1 p = true →
        kv1.2 ++ p.drop kv1.1.length = kv2.2 ++ p.drop kv2.1.length) →
      (rwmTranslate m1 p).1 = (rwmTranslate m2 p).1) ∧
    (∀ (m : RwMap) (p q v : List Char), lookupA m q = some v →
      lookupA (rwmTranslate m p).2 q = some v) := by
  constructor
  · intro m1 m2 p hperm hnd hcons
    have hlook : lookupA m1 p = lookupA m2 p := lookupA_perm hperm hnd
    unfold rwmTranslate
    rw [hlook]
    cases h2 : lookupA m2 p with
    | some v => rfl
    | none =>
      cases hf1 : findMatch m1 p with
      | some kv1 =>
        have hf1' : m1.find? (fun kv => keyMatches kv.1 p) = some kv1 := hf1
        have hmem1 := List.mem_of_find?_eq_some hf1'
        have hpred1 : keyMatches kv1.1 p = true := by simpa using List.find?_some hf1'
        cases hf2 : findMatch m2 p with
        | some kv2 =>
          have hf2' : m2.find? (fun kv => keyMatches kv.1 p) = some kv2 := hf2
          have hmem2 : kv2 ∈ m1 := hperm.mem_iff.mpr (List.mem_of_find?_eq_some hf2')
          have hpred2 : keyMatches kv2.1 p = true := by simpa using List.find?_some hf2'
          have heq := hcons kv1 hmem1 kv2 hmem2 hpred1 hpred2
          obtain ⟨k1, v1⟩ := kv1
          obtain ⟨k2, v2⟩ := kv2
          exact heq
        | none =>
          have := List.find?_eq_none.mp hf2 kv1 (hperm.mem_iff.mp hmem1)
          exact absurd hpred1 (by simpa using this)
      | none =>
        cases hf2 : findMatch m2 p with
        | some kv2 =>
          have hf2' : m2.find? (fun kv => keyMatches kv.1 p) = some kv2 := hf2
          have hmem2 := hperm.mem_iff.mpr (List.mem_of_find?_eq_some hf2')
          have hpred2 : keyMatches kv2.1 p = true := by simpa using List.find?_some hf2'
          have := List.find?_eq_none.mp hf1 kv2 hmem2
          exact absurd hpred2 (by simpa using this)
        | none => rfl
  · intro m p q v h
    unfold rwmTranslate
    cases hl : lookupA m p with
    | some w => exact h
    | none =>
      cases hf : findMatch m p with
      | some kv =>
        obtain ⟨k, w⟩ := kv
        exact lookupA_append_left _ h
      | none => exact lookupA_append_left _ h

/-- Witness for the amended C8: a map with two prefix-matching entries
whose replacements agree (`{a → x, a/b → x/b}` both send `a/b/c` to
`x/b/c`), in both iteration orders, plus the cache-extension clause. -/
theorem c8_order_independence_witness :
    (rwmTranslate [("a".toList, "x".toList), ("a/b".toList, "x/b".toList)] "a/b/c".toList).1 =
      (rwmTranslate [("a/b".toList, "x/b".toList), ("a".toList, "x".toList)] "a/b/c".toList).1 ∧
    lookupA (rwmTranslate [("a".toList, "x".toList)] "c/d".toList).2 "a".toList =
      some "x".toList :=
  ⟨c8_order_independence.1 [("a".toList, "x".toList), ("a/b".toList, "x/b".toList)]
      [("a/b".toList, "x/b".toList), ("a".toList, "x".toList)] "a/b/c".toList
      (List.Perm.swap _ _ _) (by decide) (by decide),
   c8_order_independence.2 [("a".toList, "x".toList)] "c/d".toList "a".toList "x".toList
      (by decide)⟩

/-! ## C1 -/

/-- A source file whose package clause is not in the printer's
canonical form (two spaces after `package`), with one import that the
translation changes. -/
def origC1 : List Char := "package  main\n\nimport (\n\t\"a\"\n)\n\nvar x = 1\n".toList

/-- C1 counterexample: rewriting `origC1` (whose import `a` translates
to `b`) produces a file whose bytes before the import block are
`"package main\n\n"` while the original's bytes before its import block
are `"package  main\n\n"`: the region before the import block is not
byte-identical, because the code re-renders everything up to the end of
the import block with the canonical printer. -/
theorem c1_counterexample :
    rewriteFileModel origC1 rwAB =
      .rewritten "package main\n\nimport (\n\t\"b\"".toList "\n)\n\nvar x = 1\n".toList ∧
    parseGoFile origC1 = some ⟨"main".toList, ["a".toList], 15, 28⟩ ∧
    parseGoFile ("package main\n\nimport (\n\t\"b\"".toList ++ "\n)\n\nvar x = 1\n".toList) =
      some ⟨"main".toList, ["b".toList], 14, 27⟩ ∧
    ("package main\n\nimport (\n\t\"b\"".toList ++ "\n)\n\nvar x = 1\n".toList).take 14 ≠
      origC1.take 15 := by
  refine ⟨by decide, by decide, by decide, by decide⟩

/-! ## Well-formedness and printer round-trip lemmas (for C1) -/

/-- A well-formed package name: nonempty, all identifier characters. -/
def wfName (n : List Char) : Prop := n ≠ [] ∧ ∀ c ∈ n, isIdentChar c = true

/-- A well-formed import path: contains no quote character. -/
def wfPath (p : List Char) : Prop := ∀ c ∈ p, notQuote c = true

theorem identChar_not_ws {c : Char} (h : isIdentChar c = true) : isWS c = false := by
  unfold isIdentChar at h
  unfold isWS
  simp only [Bool.or_eq_true, Bool.and_eq_true, decide_eq_true_eq, Nat.beq_eq_true_eq] at h
  simp only [Bool.or_eq_false_iff, beq_eq_false_iff_ne, ne_eq]
  omega

theorem takeWhile_append_cons {p : Char → Bool} {l : List Char} {c : Char} {r : List Char}
    (hl : ∀ x ∈ l, p x = true) (hc : p c = false) :
    (l ++ c :: r).takeWhile p = l := by
  induction l with
  | nil => simp [List.takeWhile_cons, hc]
  | cons a as ih =>
    have ha : p a = true := hl a (List.mem_cons_self _ _)
    simp only [List.cons_append, List.takeWhile_cons, ha, if_true]
    exact congrArg (a :: ·) (ih (fun x hx => hl x (List.mem_cons_of_mem _ hx)))

theorem dropWhile_append_cons {p : Char → Bool} {l : List Char} {c : Char} {r : List Char}
    (hl : ∀ x ∈ l, p x = true) (hc : p c = false) :
    (l ++ c :: r).dropWhile p = c :: r := by
  induction l with
  | nil => simp [List.dropWhile_cons, hc]
  | cons a as ih =>
    have ha : p a = true := hl a (List.mem_cons_self _ _)
    simp only [List.cons_append, List.dropWhile_cons, ha]
    exact ih (fun x hx => hl x (List.mem_cons_of_mem _ hx))

/-- Stepping the parser over the canonically printed header: on
`printPre name imps ++ t` the package clause always parses back to
`name`, and the remainder of the parse is exactly the spec scan of
`specsText imps ++ t`. -/
theorem parseGoFile_printPre_eq (name : List Char) (imps : List (List Char)) (t : List Char)
    (hn : wfName name) :
    parseGoFile (printPre name imps ++ t) =
      match parseSpecs ((specsText imps ++ t).length + 1) (specsText imps ++ t) with
      | some (paths, rest) =>
        match rest.dropWhile isWS with
        | ')' :: _ => some ⟨name, paths, 10 + name.length,
            (printPre name imps ++ t).length - rest.length⟩
        | _ => none
      | none => none := by
  obtain ⟨hne, hid⟩ := hn
  have hs : printPre name imps ++ t =
      'p' :: 'a' :: 'c' :: 'k' :: 'a' :: 'g' :: 'e' :: ' ' ::
        (name ++ ('\n' :: '\n' :: 'i' :: 'm' :: 'p' :: 'o' :: 'r' :: 't' :: ' ' :: '(' ::
          (specsText imps ++ t))) := by
    simp only [printPre, List.append_assoc, List.cons_append, List.nil_append]
    rfl
  rw [hs]
  cases name with
  | nil => exact absurd rfl hne
  | cons n0 ntl =>
    have hws0 : isWS n0 = false := identChar_not_ws (hid n0 (List.mem_cons_self _ _))
    unfold parseGoFile
    simp only [List.cons_append]
    simp +decide only [List.dropWhile_cons, List.isPrefixOf, List.drop, hws0,
      Bool.false_eq_true, if_false, if_true, Bool.true_and]
    have htw : List.takeWhile isIdentChar
        (n0 :: (ntl ++ '\n' :: '\n' :: 'i' :: 'm' :: 'p' :: 'o' :: 'r' :: 't' :: ' ' :: '(' ::
          (specsText imps ++ t))) = n0 :: ntl := by
      rw [← List.cons_append]
      exact takeWhile_append_cons hid rfl
    rw [htw]
    have hdl : List.drop (n0 :: ntl).length
        (n0 :: (ntl ++ '\n' :: '\n' :: 'i' :: 'm' :: 'p' :: 'o' :: 'r' :: 't' :: ' ' :: '(' ::
          (specsText imps ++ t))) =
        '\n' :: '\n' :: 'i' :: 'm' :: 'p' :: 'o' :: 'r' :: 't' :: ' ' :: '(' ::
          (specsText imps ++ t) := by
      rw [← List.cons_append]
      exact List.drop_left _ _
    rw [hdl]
    simp +decide only [List.isEmpty_cons, List.dropWhile_cons, List.drop,
      Bool.false_eq_true, if_false, if_true]
    have himp : ∀ X : List Char, "import".toList.isPrefixOf
        ('i' :: 'm' :: 'p' :: 'o' :: 'r' :: 't' :: ' ' :: '(' :: X) = true := fun _ => rfl
    simp only [himp, if_true]
    have hA : ('p' :: 'a' :: 'c' :: 'k' :: 'a' :: 'g' :: 'e' :: ' ' :: n0 ::
        (ntl ++ '\n' :: '\n' :: 'i' :: 'm' :: 'p' :: 'o' :: 'r' :: 't' :: ' ' :: '(' ::
          (specsText imps ++ t))).length -
        ('i' :: 'm' :: 'p' :: 'o' :: 'r' :: 't' :: ' ' :: '(' :: (specsText imps ++ t)).length =
        10 + (n0 :: ntl).length := by
      simp only [List.length_cons, List.length_append]
      omega
    rw [hA]

theorem length_specsText_ge (imps : List (List Char)) :
    imps.length ≤ (specsText imps).length := by
  induction imps with
  | nil => simp [specsText]
  | cons p ps ih =>
    simp only [specsText, List.flatMap_cons, List.length_append, List.length_cons] at ih ⊢
    omega

/-- Round trip of the spec scanner over canonically printed specs: with
well-formed paths and a suffix whose first non-whitespace character is
`)`, scanning returns exactly the printed paths and stops right after
the closing quote of the last one. -/
theorem parseSpecs_specsText (imps : List (List Char)) (t : List Char) (fuel : Nat)
    (hwf : ∀ q ∈ imps, wfPath q) (hsuf : ∃ r, t.dropWhile isWS = ')' :: r)
    (hfuel : imps.length < fuel) :
    parseSpecs fuel (specsText imps ++ t) = some (imps, t) := by
  induction imps generalizing fuel with
  | nil =>
    obtain ⟨r, hr⟩ := hsuf
    cases fuel with
    | zero => omega
    | succ fuel =>
      simp only [specsText, List.flatMap_nil, List.nil_append, parseSpecs, hr]
  | cons p ps ih =>
    cases fuel with
    | zero => omega
    | succ fuel =>
      have hsp : specsText (p :: ps) ++ t =
          '\n' :: '\t' :: '"' :: (p ++ '"' :: (specsText ps ++ t)) := by
        simp [specsText, List.flatMap_cons]
      rw [hsp]
      have hwp : wfPath p := hwf p (List.mem_cons_self _ _)
      have hdw : ('\n' :: '\t' :: '"' :: (p ++ '"' :: (specsText ps ++ t))).dropWhile isWS =
          '"' :: (p ++ '"' :: (specsText ps ++ t)) := by
        simp [List.dropWhile_cons, isWS]
      have htw : (p ++ '"' :: (specsText ps ++ t)).takeWhile notQuote = p :=
        takeWhile_append_cons hwp (by rfl)
      have hdr : (p ++ '"' :: (specsText ps ++ t)).drop p.length = '"' :: (specsText ps ++ t) :=
        List.drop_left p ('"' :: (specsText ps ++ t))
      have hrec : parseSpecs fuel (specsText ps ++ t) = some (ps, t) :=
        ih fuel (fun q hq => hwf q (List.mem_cons_of_mem _ hq))
          (by simp only [List.length_cons] at hfuel; omega)
      simp only [parseSpecs, hdw, htw, hdr, hrec]
      cases ps with
      | nil => simp [specsText]
      | cons q qs => simp

/-- Full printer/parser round trip: a canonically printed header and import
block followed by any suffix whose first non-whitespace
character is `)` parses back to exactly the printed name and paths,
with `importsStart` after the canonical header and `importsEnd` at the
end of `printPre`. -/
theorem parseGoFile_printPre_full (name : List Char) (imps : List (List Char)) (t : List Char)
    (hn : wfName name) (hwf : ∀ q ∈ imps, wfPath q)
    (hsuf : ∃ r, t.dropWhile isWS = ')' :: r) :
    parseGoFile (printPre name imps ++ t) =
      some ⟨name, imps, 10 + name.length, (printPre name imps).length⟩ := by
  rw [parseGoFile_printPre_eq name imps t hn]
  rw [parseSpecs_specsText imps t _ hwf hsuf
    (by have := length_specsText_ge imps; simp only [List.length_append]; omega)]
  obtain ⟨r, hr⟩ := hsuf
  simp only [hr]
  have hlen : (printPre name imps ++ t).length - t.length = (printPre name imps).length := by
    simp only [List.length_append]
    omega
  rw [hlen]

/-- The parsed package name of any successful parse of a printed header
is the printed name, independently of whether the printed import paths
are well formed. -/
theorem parseGoFile_printPre_name (name : List Char) (imps : List (List Char)) (t : List Char)
    (g : PFile) (hn : wfName name)
    (h : parseGoFile (printPre name imps ++ t) = some g) : g.pkgName = name := by
  rw [parseGoFile_printPre_eq name imps t hn] at h
  split at h
  · split at h
    · injection h with h2
      rw [← h2]
    · exact absurd h (by simp)
  · exact absurd h (by simp)

/-- Suffix fact: the remainder after a parsed path is a suffix of the
scanner input. -/
theorem after_suffix {s r after : List Char} (hdw : List.dropWhile isWS s = '"' :: r)
    (hdr : List.drop (List.takeWhile notQuote r).length r = '"' :: after) :
    after <:+ s := by
  have h1 : ('"' :: r) <:+ s := hdw ▸ List.dropWhile_suffix isWS
  have h2 : ('"' :: after) <:+ r := hdr ▸ List.drop_suffix _ r
  have h3 : after <:+ ('"' :: after) := ⟨['"'], rfl⟩
  have h4 : r <:+ ('"' :: r) := ⟨['"'], rfl⟩
  exact ((h3.trans h2).trans h4).trans h1

/-- Invariants of the spec scanner: parsed paths contain no quote, and
the returned remainder is a suffix of the input. -/
theorem parseSpecs_inv {fuel : Nat} {s : List Char} {ps : List (List Char)} {rest : List Char}
    (h : parseSpecs fuel s = some (ps, rest)) :
    (∀ q ∈ ps, wfPath q) ∧ rest <:+ s := by
  induction fuel generalizing s ps rest with
  | zero => simp [parseSpecs] at h
  | succ fuel ih =>
    unfold parseSpecs at h
    split at h
    · injection h with h2
      injection h2 with hps hrest
      subst hps
      subst hrest
      exact ⟨by simp, List.suffix_refl s⟩
    · rename_i heads r hdw
      simp only [] at h
      split at h
      · rename_i after hdr
        split at h
        · rename_i osnd snd hps0
          injection h with h2
          injection h2 with hps hrest
          subst hps
          subst hrest
          refine ⟨?_, after_suffix hdw hdr⟩
          intro q hq
          simp only [List.mem_singleton] at hq
          subst hq
          intro c hc
          exact List.mem_takeWhile_imp hc
        · rename_i osnd q qs rest' hrec
          injection h with h2
          injection h2 with hps hrest
          subst hps
          subst hrest
          obtain ⟨hwf', hsuf'⟩ := ih hrec
          refine ⟨?_, hsuf'.trans (after_suffix hdw hdr)⟩
          intro q' hq'
          rcases List.mem_cons.mp hq' with rfl | hq2
          · intro c hc
            exact List.mem_takeWhile_imp hc
          · exact hwf' q' hq2
        · exact absurd h (by simp)
      · exact absurd h (by simp)
    · exact absurd h (by simp)

theorem IsSuffix_drop_eq {t s : List Char} (h : t <:+ s) :
    s.drop (s.length - t.length) = t := by
  obtain ⟨u, rfl⟩ := h
  rw [List.length_append]
  have he : u.length + t.length - t.length = u.length := by omega
  rw [he]
  exact List.drop_left u t

/-- Invariants of any successful parse: the package name is well
formed, every parsed import path is quote-free, and — when there is at
least one import — the original bytes from `importsEnd` on start (after
whitespace) with the closing parenthesis of the import block. -/
theorem parseGoFile_inv {s : List Char} {f : PFile} (h : parseGoFile s = some f) :
    wfName f.pkgName ∧ (∀ q ∈ f.imports, wfPath q) ∧
    (f.imports ≠ [] → ∃ r, (s.drop f.importsEnd).dropWhile isWS = ')' :: r) := by
  unfold parseGoFile at h
  simp only [] at h
  split at h
  case isTrue hpack =>
    split at h
    case h_1 c rest1 hs1 =>
      split at h
      case isTrue hwsc =>
        split at h
        case isTrue hempty => exact absurd h (by simp)
        case isFalse hempty =>
          split at h
          case isTrue himp =>
            split at h
            case h_1 s7 hdw6 =>
              split at h
              case h_1 pr paths rest hps =>
                split at h
                case h_1 c2 tail hdwr =>
                  injection h with h2
                  subst h2
                  refine ⟨⟨?_, fun c3 hc3 => List.mem_takeWhile_imp hc3⟩,
                    (parseSpecs_inv hps).1, fun _ => ?_⟩
                  · exact fun hnil => hempty ((show List.takeWhile isIdentChar
                    (List.dropWhile isWS (List.drop 7 (List.dropWhile isWS s))) = [] from hnil) ▸ rfl)
                  · have c1 : List.dropWhile isWS s <:+ s := List.dropWhile_suffix _
                    have c2 := (List.drop_suffix 7 (List.dropWhile isWS s)).trans c1
                    have c3 := (List.dropWhile_suffix isWS).trans c2
                    have c4 := (List.drop_suffix
                      (List.takeWhile isIdentChar
                        (List.dropWhile isWS (List.drop 7 (List.dropWhile isWS s)))).length
                      (List.dropWhile isWS (List.drop 7 (List.dropWhile isWS s)))).trans c3
                    have c5 := (List.dropWhile_suffix isWS).trans c4
                    have c6 := (List.drop_suffix 6 _).trans c5
                    have c7 := (List.dropWhile_suffix isWS).trans c6
                    rw [hdw6] at c7
                    have c8 : s7 <:+ '(' :: s7 := ⟨['('], rfl⟩
                    have hrs : rest <:+ s := ((parseSpecs_inv hps).2.trans c8).trans c7
                    rw [IsSuffix_drop_eq hrs]
                    exact ⟨tail, hdwr⟩
                case h_2 => exact absurd h (by simp)
              case h_2 => exact absurd h (by simp)
            case h_2 => exact absurd h (by simp)
          case isFalse himp =>
            injection h with h2
            subst h2
            refine ⟨⟨?_, fun c3 hc3 => List.mem_takeWhile_imp hc3⟩, by simp, by simp⟩
            exact fun hnil => hempty ((show List.takeWhile isIdentChar
                    (List.dropWhile isWS (List.drop 7 (List.dropWhile isWS s))) = [] from hnil) ▸ rfl)
      case isFalse hwsc => exact absurd h (by simp)
    case h_2 => exact absurd h (by simp)
  case isFalse hpack => exact absurd h (by simp)

theorem mem_insertPath {q p : List Char} {l : List (List Char)} :
    q ∈ insertPath p l ↔ q = p ∨ q ∈ l := by
  induction l with
  | nil => simp [insertPath]
  | cons a as ih =>
    unfold insertPath
    split
    · simp [List.mem_cons]
    · simp only [List.mem_cons, ih]
      tauto

theorem mem_sortPaths {q : List Char} {l : List (List Char)} :
    q ∈ sortPaths l ↔ q ∈ l := by
  induction l with
  | nil => simp [sortPaths]
  | cons a as ih =>
    unfold sortPaths
    rw [mem_insertPath, ih, List.mem_cons]

theorem canonHeader_length (n : List Char) : (canonHeader n).length = 10 + n.length := by
  simp [canonHeader]
  omega

theorem printPre_decomp (n : List Char) (imps : List (List Char)) :
    printPre n imps = canonHeader n ++ ("import (".toList ++ specsText imps) := by
  simp [printPre, canonHeader]

/-- C1 amended: when `rewriteImportsInFile` rewrites a file, the output
is `pre ++ suf` where `suf` is byte-identical to the original file's
bytes from the end of its import block; the output parses, and its
bytes from the end of its own import block equal the original's bytes
from the end of the original import block.  The bytes before the import
block, however, are re-rendered in the printer's canonical form
`"package " ++ name ++ "\n\n"`, so they are byte-identical to the
original exactly when the original's pre-import-block bytes were
already in that canonical form (e.g. a gofmt-formatted file); for any
other header layout they differ (see the counterexample). -/
theorem c1_amended (s : List Char) (rw : List Char → List Char) (pre suf : List Char)
    (h : rewriteFileModel s rw = .rewritten pre suf) :
    ∃ f g, parseGoFile s = some f ∧ parseGoFile (pre ++ suf) = some g ∧
      suf = s.drop f.importsEnd ∧
      (pre ++ suf).drop g.importsEnd = s.drop f.importsEnd ∧
      (pre ++ suf).take g.importsStart = canonHeader f.pkgName ∧
      (s.take f.importsStart = canonHeader f.pkgName →
        (pre ++ suf).take g.importsStart = s.take f.importsStart) := by
  unfold rewriteFileModel at h
  split at h
  case h_1 => exact absurd h (by simp)
  case h_2 f hpf =>
    split at h
    case isTrue => exact absurd h (by simp)
    case isFalse hnemp =>
      split at h
      case isFalse => exact absurd h (by simp)
      case isTrue hchanged =>
        simp only [] at h
        split at h
        case h_1 => exact absurd h (by simp)
        case h_2 f1 hp1 =>
          split at h
          case h_1 => exact absurd h (by simp)
          case h_2 f2 hp2 =>
            injection h with hpre hsuf
            -- invariants of the original parse
            obtain ⟨hwfn, hwfp, hsufx⟩ := parseGoFile_inv hpf
            have hne : f.imports ≠ [] := fun hnil => hnemp (by rw [hnil]; rfl)
            obtain ⟨r0, hr0⟩ := hsufx hne
            -- the first re-parse preserves the package name
            have hname1 : f1.pkgName = f.pkgName :=
              parseGoFile_printPre_name f.pkgName (f.imports.map rw) ('\n' :: ')' :: ['\n'])
                f1 hwfn hp1
            -- invariants of the first re-parse
            obtain ⟨hwfn1, hwfp1, _⟩ := parseGoFile_inv hp1
            -- the second re-parse is a full round trip
            have hwfsorted : ∀ q ∈ sortPaths f1.imports, wfPath q :=
              fun q hq => hwfp1 q (mem_sortPaths.mp hq)
            have hsuf0 : ∃ r, (('\n' :: ')' :: ['\n']) : List Char).dropWhile isWS = ')' :: r :=
              ⟨['\n'], rfl⟩
            have hp2' : parseGoFile (printGoFile f1.pkgName (sortPaths f1.imports)) =
                some ⟨f1.pkgName, sortPaths f1.imports, 10 + f1.pkgName.length,
                  (printPre f1.pkgName (sortPaths f1.imports)).length⟩ :=
              parseGoFile_printPre_full f1.pkgName (sortPaths f1.imports) _ hwfn1 hwfsorted hsuf0
            rw [hp2'] at hp2
            injection hp2 with hf2
            subst hf2
            -- shape of pre
            have hpre' : pre = printPre f1.pkgName (sortPaths f1.imports) := by
              rw [← hpre]
              exact List.take_left _ _
            -- parse of the output
            have hout : parseGoFile (pre ++ suf) =
                some ⟨f1.pkgName, sortPaths f1.imports, 10 + f1.pkgName.length,
                  (printPre f1.pkgName (sortPaths f1.imports)).length⟩ := by
              rw [hpre']
              refine parseGoFile_printPre_full f1.pkgName (sortPaths f1.imports) suf hwfn1
                hwfsorted ⟨r0, ?_⟩
              rw [hsuf] at hr0
              exact hr0
            refine ⟨f, _, hpf, hout, hsuf.symm, ?_, ?_, ?_⟩
            · show (pre ++ suf).drop (printPre f1.pkgName (sortPaths f1.imports)).length =
                List.drop f.importsEnd s
              rw [hpre']
              rw [List.drop_left (printPre f1.pkgName (sortPaths f1.imports)) suf, hsuf]
            · show (pre ++ suf).take (10 + f1.pkgName.length) = canonHeader f.pkgName
              rw [hpre', printPre_decomp, List.append_assoc, ← canonHeader_length f1.pkgName]
              rw [List.take_left, hname1]
            · intro hcanon
              show (pre ++ suf).take (10 + f1.pkgName.length) = List.take f.importsStart s
              rw [hpre', printPre_decomp, List.append_assoc, ← canonHeader_length f1.pkgName]
              rw [List.take_left, hname1]
              exact hcanon.symm

/-- Witness for the amended C1 at a concrete, canonically formatted
file whose import `a` is translated to `b`. -/
theorem c1_amended_witness :
    ∃ f g, parseGoFile "package main\n\nimport (\n\t\"a\"\n)\nb1\n".toList = some f ∧
      parseGoFile ("package main\n\nimport (\n\t\"b\"".toList ++ "\n)\nb1\n".toList) = some g ∧
      "\n)\nb1\n".toList =
        "package main\n\nimport (\n\t\"a\"\n)\nb1\n".toList.drop f.importsEnd ∧
      ("package main\n\nimport (\n\t\"b\"".toList ++ "\n)\nb1\n".toList).drop g.importsEnd =
        "package main\n\nimport (\n\t\"a\"\n)\nb1\n".toList.drop f.importsEnd ∧
      ("package main\n\nimport (\n\t\"b\"".toList ++ "\n)\nb1\n".toList).take g.importsStart =
        canonHeader f.pkgName ∧
      ("package main\n\nimport (\n\t\"a\"\n)\nb1\n".toList.take f.importsStart =
          canonHeader f.pkgName →
        ("package main\n\nimport (\n\t\"b\"".toList ++ "\n)\nb1\n".toList).take g.importsStart =
          "package main\n\nimport (\n\t\"a\"\n)\nb1\n".toList.take f.importsStart) :=
  c1_amended "package main\n\nimport (\n\t\"a\"\n)\nb1\n".toList rwAB
    "package main\n\nimport (\n\t\"b\"".toList "\n)\nb1\n".toList (by decide)
